import Mathlib

/-! Verification of the μparse parser-combinator engine.

Shallow embedding of `src/index.js` of the `uparse` library.

Modelling choices:
* JS strings are `List Char`; the cursor (`ParseState`) is the pair of the
  full source string and a natural-number offset, exactly as in the source.
* A result value (`Val`) models the JS values the engine produces: `null`,
  strings, and the tagged objects `{str: …}`, `{char: …}`, `{seq: […]}`,
  `{rep: […]}`, `{opt: …}`, `{alt: …}`.  Formatters are arbitrary functions
  `Val → Val`; the JS default formatter is the identity, so the combinator
  "without a formatter" is the combinator applied to `id`.
* A parser is a function `ParseState → Option (Val × ParseState)`;
  the JS failure value `null` is `none`.
* `rep`'s `while` loop can diverge for non-consuming sub-parsers, so the loop
  is embedded twice: as the executable fuel-bounded `repLoop` (fuel exhaustion
  yields `none`, an under-approximation of divergence) and as the big-step
  relation `RepRun`, which holds exactly when the loop terminates; the two are
  connected by `repLoop_sound` and `RepRun.toRepLoop`.
* `ref` performs `ctx[name](parseState)`: when `name` is unbound the JS call
  throws a `TypeError`, so its embedding returns a three-valued `RefResult`
  distinguishing the thrown error from an ordinary parse failure.  The
  registry argument is the registry's contents at the moment the returned
  parser is invoked (JS reads the mutable object at call time).
-/

namespace Uparse

/-- JS values produced by the engine: `null`, strings, and the tagged
result objects of the six combinators. -/
inductive Val : Type where
  | vnull : Val
  | vstr : List Char → Val
  | vlist : List Val → Val
  | tagStr : Val → Val
  | tagChar : Val → Val
  | tagSeq : List Val → Val
  | tagRep : List Val → Val
  | tagOpt : Val → Val
  | tagAlt : Val → Val

/-- The parser state: the full input string plus a cursor offset
(`function ParseState (string, offset)`). -/
structure ParseState : Type where
  string : List Char
  offset : Nat
deriving DecidableEq

/-- Embedding of `ParseState.prototype.peek`: the next `n` characters at the cursor,
clipped at the end of the string (`this.string.slice(this.offset,
this.offset + n)`). -/
def ParseState.peek (ps : ParseState) (n : Nat) : List Char :=
  (ps.string.drop ps.offset).take n

/-- Embedding of `ParseState.prototype.read`: a new state with the cursor advanced `n`
characters (`new ParseState(this.string, this.offset + n)`). -/
def ParseState.read (ps : ParseState) (n : Nat) : ParseState :=
  ⟨ps.string, ps.offset + n⟩

/-- Embedding of `ParseState.prototype.isComplete`: whether the end of the string has been
reached (`this.offset === this.string.length`). -/
def ParseState.isComplete (ps : ParseState) : Bool :=
  ps.offset == ps.string.length

/-- A parser: a function from state to an optional (value, next state) pair;
JS `null` on failure is `none`. -/
def Parser : Type := ParseState → Option (Val × ParseState)

/-- Embedding of `parse(parser, string)`: run the parser on a fresh state at offset 0 and
return `result && result[1].isComplete() ? result[0] : null`.  The returned
success/failure sentinel `null` is `Val.vnull`. -/
def parse (p : Parser) (string : List Char) : Val :=
  match p ⟨string, 0⟩ with
  | some result => if result.2.isComplete then result.1 else Val.vnull
  | none => Val.vnull

/-- Embedding of `str(string, f)`: match the exact string; on success return
`[f({str: chunk}), parseState.read(string.length)]`. -/
def str (string : List Char) (f : Val → Val) : Parser := fun parseState =>
  let chunk := parseState.peek string.length
  if chunk = string then
    some (f (Val.tagStr (Val.vstr chunk)), parseState.read string.length)
  else
    none

/-- Membership of a character in the body of a JS character class
`[...]`: `a-b` spans the code-point range, any other character stands for
itself, and a dash that is not between two characters is literal. -/
def classMem : List Char → Char → Bool
  | a :: '-' :: b :: rest, c => (a ≤ c && c ≤ b) || classMem rest c
  | a :: rest, c => (c == a) || classMem rest c
  | [], _ => false

/-- The test `new RegExp('[' + chars + ']').test(chunk)` of the `char`
combinator: the chunk (of length at most 1) has a character in the class; a
leading `^` negates the class.  Escapes and other regex syntax beyond
literals, ranges and negation are not modelled (no claim depends on them). -/
def charTest (chars : List Char) (chunk : List Char) : Bool :=
  match chunk with
  | [c] =>
    match chars with
    | '^' :: rest => !(classMem rest c)
    | _ => classMem chars c
  | _ => false

/-- Embedding of `char(chars, f)`: match one character of the class; on success return
`[f({char: chunk}), parseState.read(1)]`. -/
def char (chars : List Char) (f : Val → Val) : Parser := fun parseState =>
  let chunk := parseState.peek 1
  if charTest chars chunk then
    some (f (Val.tagChar (Val.vstr chunk)), parseState.read 1)
  else
    none

/-- The accumulator of `seq`'s `reduce`:
`{ success: true, state: parseState, matches: [] }`. -/
structure SeqAcc : Type where
  success : Bool
  state : ParseState
  matched : List Val

/-- One step of `seq`'s `reduce` callback. -/
def seqStep (acc : SeqAcc) (p : Parser) : SeqAcc :=
  if acc.success then
    match p acc.state with
    | some parsed =>
      { success := true, state := parsed.2, matched := acc.matched ++ [parsed.1] }
    | none => { acc with success := false }
  else acc

/-- Embedding of `seq(parsers, f)`: thread the state through every parser in order; on
full success return `[f({seq: matches}), finalState]`. -/
def seq (parsers : List Parser) (f : Val → Val) : Parser := fun parseState =>
  let result := parsers.foldl seqStep ⟨true, parseState, []⟩
  if result.success then
    some (f (Val.tagSeq result.matched), result.state)
  else
    none

/-- Fuel-bounded embedding of `rep`'s `while` loop: apply the parser
repeatedly from the given state; when an application fails, return the
collected matches together with `lastState`, the state at which the failing
attempt was made (the state left by the last success).  `none` means the fuel
ran out (the JS loop would still be running). -/
def repLoop (p : Parser) : Nat → ParseState → Option (List Val × ParseState)
  | 0, _ => none
  | fuel + 1, parseState =>
    match p parseState with
    | some parsed =>
      (repLoop p fuel parsed.2).map fun r => (parsed.1 :: r.1, r.2)
    | none => some ([], parseState)

/-- Embedding of `rep(parser, n, f)` with explicit fuel for the loop: on loop termination,
succeed iff `matches.length >= n`, returning `[f({rep: matches}), lastState]`. -/
def rep (p : Parser) (n : Nat) (f : Val → Val) (fuel : Nat) : Parser :=
  fun parseState =>
    match repLoop p fuel parseState with
    | some (matched, lastState) =>
      if n ≤ matched.length then some (f (Val.tagRep matched), lastState) else none
    | none => none

/-- Big-step semantics of `rep`'s `while` loop: `RepRun p c vs last` holds
exactly when the loop started at `c` terminates, having collected the match
values `vs` in order, with `lastState = last` (the state of the failing
attempt, i.e. the state left by the last successful sub-match, or `c` itself
when there was none). -/
inductive RepRun (p : Parser) : ParseState → List Val → ParseState → Prop where
  | stop {c : ParseState} : p c = none → RepRun p c [] c
  | step {c c' last : ParseState} {v : Val} {vs : List Val} :
      p c = some (v, c') → RepRun p c' vs last → RepRun p c (v :: vs) last

/-- The result of `rep(parser, n, f)` at a state, as a relation: the loop
terminates with matches `vs` and last state `last`, and the result is the
length test applied to them (exactly the `return` of the source). -/
def RepResult (p : Parser) (n : Nat) (f : Val → Val) (c : ParseState)
    (r : Option (Val × ParseState)) : Prop :=
  ∃ vs last, RepRun p c vs last ∧
    r = if n ≤ vs.length then some (f (Val.tagRep vs), last) else none

/-- Embedding of `opt(parser, f)`: on success of the inner parser return
`[f({opt: parsed[0]}), parsed[1]]`, otherwise `[f({opt: null}), parseState]`. -/
def opt (p : Parser) (f : Val → Val) : Parser := fun parseState =>
  match p parseState with
  | some parsed => some (f (Val.tagOpt parsed.1), parsed.2)
  | none => some (f (Val.tagOpt Val.vnull), parseState)

/-- The `for` loop of `alt`: try each parser on the same state, returning the
first success wrapped as `{alt: …}`. -/
def altGo (f : Val → Val) (parseState : ParseState) : List Parser → Option (Val × ParseState)
  | [] => none
  | p :: rest =>
    match p parseState with
    | some result => some (f (Val.tagAlt result.1), result.2)
    | none => altGo f parseState rest

/-- Embedding of `alt(parsers, f)`: the first parser in the list to succeed at the
original state wins; if none succeed the alternation fails. -/
def alt (parsers : List Parser) (f : Val → Val) : Parser := fun parseState =>
  altGo f parseState parsers

/-- A reference registry: the mapping held by the context object at the
moment the reference is invoked. -/
def Ctx : Type := String → Option Parser

/-- Result of invoking a `ref` parser: either the delegated parser's ordinary
result, or the `TypeError` thrown by `ctx[name](parseState)` when `name` is
unbound at invocation time. -/
inductive RefResult : Type where
  | ok : Option (Val × ParseState) → RefResult
  | err : RefResult

/-- Embedding of `ref(ctx, name)`: look `name` up in the registry at invocation time and
delegate entirely to the bound parser; an unbound name makes the JS call
throw, embedded as `RefResult.err`. -/
def ref (ctx : Ctx) (name : String) : ParseState → RefResult := fun parseState =>
  match ctx name with
  | some p => RefResult.ok (p parseState)
  | none => RefResult.err

/-- Iterated application of a parser, written from the spec's notion of a
greedy run: `applyN p k c` is the list of the `k` values obtained by applying
`p` `k` times in a row, each application at the state left by the previous
success, together with the state after the `k`-th success; `none` when some
application among the `k` fails. -/
def applyN (p : Parser) : Nat → ParseState → Option (List Val × ParseState)
  | 0, c => some ([], c)
  | k + 1, c =>
    match p c with
    | some (v, c') => (applyN p k c').map fun r => (v :: r.1, r.2)
    | none => none

/-- Monotone consumption: every success of the parser moves the cursor
forward or leaves it in place. -/
def Mono (p : Parser) : Prop :=
  ∀ c v c', p c = some (v, c') → c.offset ≤ c'.offset

/-- Apply a formatter on top of a parser result, leaving the cursor and the
success/failure outcome untouched. -/
def fmapR (f : Val → Val) : Option (Val × ParseState) → Option (Val × ParseState) :=
  Option.map fun r => (f r.1, r.2)

/-- Syntax of grammars built from the seven combinators; `gref` names an
entry of a registry whose entries are themselves grammars. -/
inductive Grammar : Type where
  | gstr : List Char → (Val → Val) → Grammar
  | gchar : List Char → (Val → Val) → Grammar
  | gseq : List Grammar → (Val → Val) → Grammar
  | grep : Grammar → Nat → (Val → Val) → Grammar
  | gopt : Grammar → (Val → Val) → Grammar
  | galt : List Grammar → (Val → Val) → Grammar
  | gref : String → Grammar

/-- A registry all of whose entries are combinator-built grammars. -/
def GReg : Type := String → Option Grammar

/-- Interpretation of a grammar as a parser, delegating each construct to the
combinator embedded from the source.  The fuel bounds the recursion depth
through `gref` and the iterations of `grep`'s loop; when it runs out, or when
a referenced name is unbound (where the JS engine would throw), the
interpretation returns `none`, so every success it does return is a success
of the source engine. -/
def interp (reg : GReg) : Nat → Grammar → Parser
  | 0, _ => fun _ => none
  | fuel + 1, g => fun parseState =>
    match g with
    | .gstr s f => str s f parseState
    | .gchar cs f => char cs f parseState
    | .gseq gs f => seq (gs.map fun g' => interp reg fuel g') f parseState
    | .grep g' n f => rep (interp reg fuel g') n f fuel parseState
    | .gopt g' f => opt (interp reg fuel g') f parseState
    | .galt gs f => alt (gs.map fun g' => interp reg fuel g') f parseState
    | .gref name =>
      match reg name with
      | some g' => interp reg fuel g' parseState
      | none => none

/-- A parser that succeeds at every state, consuming one position: it
strictly advances the cursor, yet `rep`'s loop on it never terminates. -/
def alwaysAdvance : Parser := fun c => some (Val.vnull, c.read 1)

/-! Lemmas about the repetition loop. -/

/-- Every result of the fuel-bounded loop is a genuine terminating run of the
source's `while` loop. -/
theorem repLoop_sound {p : Parser} :
    ∀ {fuel : Nat} {c : ParseState} {vs : List Val} {last : ParseState},
      repLoop p fuel c = some (vs, last) → RepRun p c vs last := by
  intro fuel
  induction fuel with
  | zero => intro c vs last h; simp [repLoop] at h
  | succ fuel ih =>
    intro c vs last h
    unfold repLoop at h
    cases hp : p c with
    | none =>
      rw [hp] at h
      simp only [Option.some.injEq, Prod.mk.injEq] at h
      rw [← h.1, ← h.2]
      exact RepRun.stop hp
    | some parsed =>
      rw [hp] at h
      simp only [] at h
      cases hr : repLoop p fuel parsed.2 with
      | none => rw [hr] at h; cases h
      | some r =>
        rw [hr] at h
        simp only [Option.map_some', Option.some.injEq, Prod.mk.injEq] at h
        rw [← h.1, ← h.2]
        exact RepRun.step (by rw [hp]) (ih hr)

/-- A terminating run of the `while` loop is found by the fuel-bounded loop
once the fuel exceeds the number of successful sub-matches. -/
theorem RepRun.toRepLoop {p : Parser} {c : ParseState} {vs : List Val}
    {last : ParseState} (h : RepRun p c vs last) :
    repLoop p (vs.length + 1) c = some (vs, last) := by
  induction h with
  | stop hp => simp [repLoop, hp]
  | @step c c' last v vs hp htail ih =>
    show repLoop p ((v :: vs).length + 1) c = some (v :: vs, last)
    have hl : (v :: vs).length + 1 = (vs.length + 1) + 1 := rfl
    rw [hl]
    unfold repLoop
    rw [hp]
    simp only []
    rw [ih]
    rfl

/-- The `while` loop is deterministic: a run from a given state has a unique
list of matches and a unique final state. -/
theorem RepRun.det {p : Parser} {c : ParseState} {vs vs' : List Val}
    {last last' : ParseState} (h : RepRun p c vs last)
    (h' : RepRun p c vs' last') : vs = vs' ∧ last = last' := by
  induction h generalizing vs' last' with
  | stop hp =>
    cases h' with
    | stop hp' => exact ⟨rfl, rfl⟩
    | step hp' htail' => rw [hp] at hp'; cases hp'
  | step hp htail ih =>
    cases h' with
    | stop hp' => rw [hp'] at hp; cases hp
    | step hp' htail' =>
      rw [hp] at hp'
      simp only [Option.some.injEq, Prod.mk.injEq] at hp'
      obtain ⟨rfl, rfl⟩ := hp'
      obtain ⟨rfl, rfl⟩ := ih htail'
      exact ⟨rfl, rfl⟩

/-- The loop stops exactly at a failing attempt: at the final state the
sub-parser fails. -/
theorem RepRun.lastFails {p : Parser} {c : ParseState} {vs : List Val}
    {last : ParseState} (h : RepRun p c vs last) : p last = none := by
  induction h with
  | stop hp => exact hp
  | step _ _ ih => exact ih

/-- Monotone sub-parsers give monotone loops: the final state of a
terminating run is at or after the starting state. -/
theorem RepRun.mono {p : Parser} (hp : Mono p) {c : ParseState} {vs : List Val}
    {last : ParseState} (h : RepRun p c vs last) : c.offset ≤ last.offset := by
  induction h with
  | stop _ => exact Nat.le_refl _
  | step hstep _ ih => exact Nat.le_trans (hp _ _ _ hstep) ih

/-- Lemma: `applyN` produces exactly as many match values as applications. -/
theorem applyN_length {p : Parser} :
    ∀ {k : Nat} {c : ParseState} {vs : List Val} {e : ParseState},
      applyN p k c = some (vs, e) → vs.length = k := by
  intro k
  induction k with
  | zero =>
    intro c vs e h
    simp only [applyN, Option.some.injEq, Prod.mk.injEq] at h
    rw [← h.1]; rfl
  | succ k ih =>
    intro c vs e h
    unfold applyN at h
    cases hp : p c with
    | none => rw [hp] at h; cases h
    | some parsed =>
      obtain ⟨v, c'⟩ := parsed
      rw [hp] at h
      simp only [] at h
      cases hr : applyN p k c' with
      | none => rw [hr] at h; cases h
      | some r =>
        rw [hr] at h
        simp only [Option.map_some', Option.some.injEq, Prod.mk.injEq] at h
        rw [← h.1]
        simp [ih hr]

/-- The spec's greedy-run characterisation implies a terminating loop run:
`k` consecutive successes followed by a failing attempt form exactly a
terminating run of the `while` loop. -/
theorem applyN_repRun {p : Parser} :
    ∀ {k : Nat} {c : ParseState} {vs : List Val} {e : ParseState},
      applyN p k c = some (vs, e) → p e = none → RepRun p c vs e := by
  intro k
  induction k with
  | zero =>
    intro c vs e h hf
    simp only [applyN, Option.some.injEq, Prod.mk.injEq] at h
    rw [← h.1, ← h.2]
    rw [← h.2] at hf
    exact RepRun.stop hf
  | succ k ih =>
    intro c vs e h hf
    unfold applyN at h
    cases hp : p c with
    | none => rw [hp] at h; cases h
    | some parsed =>
      obtain ⟨v, c'⟩ := parsed
      rw [hp] at h
      simp only [] at h
      cases hr : applyN p k c' with
      | none => rw [hr] at h; cases h
      | some r =>
        obtain ⟨rvs, re⟩ := r
        rw [hr] at h
        simp only [Option.map_some', Option.some.injEq, Prod.mk.injEq] at h
        obtain ⟨h1, h2⟩ := h
        subst h1
        subst h2
        exact RepRun.step hp (ih hr hf)

/-! Monotonicity and preservation lemmas for the individual combinators. -/

/-- Lemma: `str` only ever advances the cursor (by the length of its literal). -/
theorem str_mono (s : List Char) (f : Val → Val) : Mono (str s f) := by
  intro c v c' h
  unfold str at h
  by_cases hc : c.peek s.length = s
  · simp only [hc, if_pos, Option.some.injEq, Prod.mk.injEq] at h
    rw [← h.2]
    exact Nat.le_add_right _ _
  · simp [hc] at h

/-- Lemma: `str` keeps the cursor on the same source string. -/
theorem str_preserves {s : List Char} {f : Val → Val} {c : ParseState}
    {v : Val} {c' : ParseState} (h : str s f c = some (v, c')) :
    c'.string = c.string := by
  unfold str at h
  by_cases hc : c.peek s.length = s
  · simp only [hc, if_pos, Option.some.injEq, Prod.mk.injEq] at h
    rw [← h.2]
    rfl
  · simp [hc] at h

/-- A success of `char` strictly advances the cursor by one position, stays
on the same string, and cannot move past its end. -/
theorem char_bounds {cs : List Char} {f : Val → Val} {c : ParseState}
    {v : Val} {c' : ParseState} (h : char cs f c = some (v, c')) :
    c.offset < c'.offset ∧ c'.string = c.string ∧ c'.offset ≤ c'.string.length := by
  unfold char at h
  simp only [] at h
  cases ht : charTest cs (c.peek 1) with
  | false => rw [ht] at h; simp at h
  | true =>
    rw [ht] at h
    simp only [if_pos, Option.some.injEq, Prod.mk.injEq] at h
    have hlt : c.offset < c.string.length := by
      by_contra hge
      push_neg at hge
      have hnil : c.peek 1 = [] := by
        unfold ParseState.peek
        rw [List.drop_eq_nil_of_le hge]
        rfl
      rw [hnil] at ht
      simp [charTest] at ht
    rw [← h.2]
    refine ⟨Nat.lt_succ_of_le (Nat.le_refl _), rfl, ?_⟩
    exact hlt

/-- Lemma: `char` only ever advances the cursor. -/
theorem char_mono (cs : List Char) (f : Val → Val) : Mono (char cs f) := by
  intro c v c' h
  exact Nat.le_of_lt (char_bounds h).1

/-- The `reduce` of `seq` never moves the accumulated state backwards, as
long as every parser in the list is monotone. -/
theorem seqFoldl_offset_le {qs : List Parser} (hq : ∀ q ∈ qs, Mono q) :
    ∀ acc : SeqAcc, acc.state.offset ≤ (qs.foldl seqStep acc).state.offset := by
  induction qs with
  | nil => intro acc; exact Nat.le_refl _
  | cons q qs ih =>
    intro acc
    have hq' : ∀ r ∈ qs, Mono r := fun r hr => hq r (List.mem_cons_of_mem _ hr)
    have h1 : acc.state.offset ≤ (seqStep acc q).state.offset := by
      unfold seqStep
      by_cases hs : acc.success
      · simp only [hs, if_pos]
        cases hp : q acc.state with
        | none => exact Nat.le_refl _
        | some parsed =>
          exact hq q (List.mem_cons_self _ _) acc.state parsed.1 parsed.2 (by rw [hp])
      · simp [hs]
    calc acc.state.offset ≤ (seqStep acc q).state.offset := h1
      _ ≤ (qs.foldl seqStep (seqStep acc q)).state.offset := ih hq' _
      _ = ((q :: qs).foldl seqStep acc).state.offset := by rw [List.foldl_cons]

/-- Lemma: `seq` of monotone parsers is monotone. -/
theorem seq_mono {qs : List Parser} (hq : ∀ q ∈ qs, Mono q) (f : Val → Val) :
    Mono (seq qs f) := by
  intro c v c' h
  unfold seq at h
  by_cases hs : (qs.foldl seqStep ⟨true, c, []⟩).success
  · simp only [hs, if_pos, Option.some.injEq, Prod.mk.injEq] at h
    rw [← h.2]
    exact seqFoldl_offset_le hq ⟨true, c, []⟩
  · simp [hs] at h

/-- Lemma: `opt` of a monotone parser is monotone. -/
theorem opt_mono {p : Parser} (hp : Mono p) (f : Val → Val) : Mono (opt p f) := by
  intro c v c' h
  unfold opt at h
  cases hpc : p c with
  | none =>
    rw [hpc] at h
    simp only [Option.some.injEq, Prod.mk.injEq] at h
    rw [← h.2]
  | some parsed =>
    rw [hpc] at h
    simp only [Option.some.injEq, Prod.mk.injEq] at h
    rw [← h.2]
    exact hp c parsed.1 parsed.2 (by rw [hpc])

/-- The `for` loop of `alt` returns the result of some parser of the list
applied at the original state, so it is monotone for monotone alternatives. -/
theorem altGo_mono {f : Val → Val} :
    ∀ {qs : List Parser}, (∀ q ∈ qs, Mono q) →
      ∀ {c : ParseState} {v : Val} {c' : ParseState},
        altGo f c qs = some (v, c') → c.offset ≤ c'.offset := by
  intro qs
  induction qs with
  | nil => intro _ c v c' h; cases h
  | cons q qs ih =>
    intro hq c v c' h
    unfold altGo at h
    cases hp : q c with
    | some result =>
      rw [hp] at h
      simp only [Option.some.injEq, Prod.mk.injEq] at h
      rw [← h.2]
      exact hq q (List.mem_cons_self _ _) c result.1 result.2 (by rw [hp])
    | none =>
      rw [hp] at h
      exact ih (fun r hr => hq r (List.mem_cons_of_mem _ hr)) h

/-- Lemma: `alt` of monotone parsers is monotone. -/
theorem alt_mono {qs : List Parser} (hq : ∀ q ∈ qs, Mono q) (f : Val → Val) :
    Mono (alt qs f) := by
  intro c v c' h
  exact altGo_mono hq h

/-- Lemma: `rep` of a monotone parser is monotone (for any fuel). -/
theorem rep_mono {p : Parser} (hp : Mono p) (n : Nat) (f : Val → Val)
    (fuel : Nat) : Mono (rep p n f fuel) := by
  intro c v c' h
  unfold rep at h
  cases hr : repLoop p fuel c with
  | none => rw [hr] at h; cases h
  | some r =>
    obtain ⟨vs, last⟩ := r
    rw [hr] at h
    simp only [] at h
    by_cases hn : n ≤ vs.length
    · simp only [hn, if_pos, Option.some.injEq, Prod.mk.injEq] at h
      rw [← h.2]
      exact RepRun.mono hp (repLoop_sound hr)
    · simp [hn] at h

/-! Characterisation lemmas for the alternation loop. -/

/-- The `for` loop of `alt` returns `null` exactly when every alternative
fails at the original state. -/
theorem altGo_none_iff {f : Val → Val} {c : ParseState} :
    ∀ {qs : List Parser}, (altGo f c qs = none ↔ ∀ q ∈ qs, q c = none) := by
  intro qs
  induction qs with
  | nil => simp [altGo]
  | cons q qs ih =>
    unfold altGo
    cases hp : q c with
    | some result =>
      simp only []
      constructor
      · intro h; cases h
      · intro h
        have := h q (List.mem_cons_self _ _)
        rw [hp] at this
        cases this
    | none =>
      simp only []
      rw [ih]
      constructor
      · intro h r hr
        rcases List.mem_cons.mp hr with hh | ht
        · rw [hh]; exact hp
        · exact h r ht
      · intro h r hr
        exact h r (List.mem_cons_of_mem _ hr)

/-- The `for` loop of `alt` returns the first success, wrapped with the
`alt` tag, when every earlier alternative fails. -/
theorem altGo_first {f : Val → Val} {c : ParseState} :
    ∀ {l : List Parser} {p : Parser} {r : List Parser} {v : Val} {c' : ParseState},
      (∀ q ∈ l, q c = none) → p c = some (v, c') →
      altGo f c (l ++ p :: r) = some (f (Val.tagAlt v), c') := by
  intro l
  induction l with
  | nil =>
    intro p r v c' _ hp
    unfold altGo
    rw [List.nil_append] at *
    simp only []
    rw [hp]
  | cons q l ih =>
    intro p r v c' hl hp
    have hq : q c = none := hl q (List.mem_cons_self _ _)
    show altGo f c (q :: (l ++ p :: r)) = some (f (Val.tagAlt v), c')
    unfold altGo
    rw [hq]
    exact ih (fun s hs => hl s (List.mem_cons_of_mem _ hs)) hp

/-- The `for` loop of `alt` applies formatters transparently. -/
theorem altGo_fmt {f : Val → Val} {c : ParseState} :
    ∀ {qs : List Parser}, altGo f c qs = fmapR f (altGo id c qs) := by
  intro qs
  induction qs with
  | nil => simp [altGo, fmapR]
  | cons q qs ih =>
    unfold altGo
    cases hp : q c with
    | some result => simp [fmapR]
    | none => exact ih

/-! Termination of the repetition loop under bounded strict consumption. -/

/-- If every success of `p` strictly advances the cursor, stays on the same
string and never moves past its end, the `while` loop of `rep` terminates
from every state: induction on the remaining length of the input. -/
theorem rep_term_aux (p : Parser)
    (hp : ∀ c v c', p c = some (v, c') →
      c.offset < c'.offset ∧ c'.string = c.string ∧ c'.offset ≤ c'.string.length) :
    ∀ (m : Nat) (c : ParseState), c.string.length - c.offset < m →
      ∃ vs last, RepRun p c vs last := by
  intro m
  induction m with
  | zero => intro c h; exact absurd h (Nat.not_lt_zero _)
  | succ m ih =>
    intro c hm
    cases hpc : p c with
    | none => exact ⟨[], c, RepRun.stop hpc⟩
    | some parsed =>
      obtain ⟨v, c'⟩ := parsed
      obtain ⟨h1, h2, h3⟩ := hp c v c' hpc
      have hlen : c'.string.length = c.string.length := by rw [h2]
      obtain ⟨vs, last, hrun⟩ := ih c' (by omega)
      exact ⟨v :: vs, last, RepRun.step hpc hrun⟩

/-! Statements and proofs of the claims. -/

/-- Claim C1: for every parser `p` (threading its cursor over the input
string, as all engine parsers do) and every string `s`, `parse p s` returns
`p`'s formatted result value exactly when `p` applied to a fresh cursor at
offset 0 succeeds with a returned cursor whose offset equals `length s`; if
`p` fails, or succeeds at any other offset (in particular a prefix-only
match, strictly before the end), `parse p s` returns the failure sentinel
`null`. -/
theorem parse_total_iff_complete (p : Parser) (s : List Char)
    (hpres : ∀ c v c', p c = some (v, c') → c'.string = c.string) :
    (∀ v st, p ⟨s, 0⟩ = some (v, st) →
      (st.offset = s.length → parse p s = v)
      ∧ (st.offset ≠ s.length → parse p s = Val.vnull))
    ∧ (p ⟨s, 0⟩ = none → parse p s = Val.vnull) := by
  constructor
  · intro v st h
    have hst : st.string = s := hpres _ _ _ h
    constructor
    · intro he
      unfold parse
      rw [h]
      simp only [ParseState.isComplete, hst, he, beq_self_eq_true, if_true]
    · intro he
      unfold parse
      rw [h]
      have : (st.offset == st.string.length) = false := by
        rw [hst]
        exact beq_false_of_ne he
      simp only [ParseState.isComplete, this]
      rfl
  · intro h
    unfold parse
    rw [h]

/-- Witness for C1: `str "ab"` consumes all of `"ab"` and `parse` returns its
result; `str "a"` matches only a prefix of `"ab"` and `parse` returns the
failure sentinel. -/
theorem parse_total_iff_complete_witness :
    parse (str ['a', 'b'] id) ['a', 'b'] = Val.tagStr (Val.vstr ['a', 'b'])
    ∧ parse (str ['a'] id) ['a', 'b'] = Val.vnull := by
  constructor
  · exact ((parse_total_iff_complete (str ['a', 'b'] id) ['a', 'b']
      (fun c v c' h => str_preserves h)).1
      (Val.tagStr (Val.vstr ['a', 'b'])) ⟨['a', 'b'], 2⟩ rfl).1 rfl
  · exact ((parse_total_iff_complete (str ['a'] id) ['a', 'b']
      (fun c v c' h => str_preserves h)).1
      (Val.tagStr (Val.vstr ['a'])) ⟨['a', 'b'], 1⟩ rfl).2 (by decide)

/-- Claim C4: `opt p` never fails: if `p` succeeds with value `v` and cursor
`c'`, it returns the formatted `{opt: v}` at `c'`; if `p` fails, it returns
the formatted `{opt: null}` (the absent marker) with the original cursor
unchanged. -/
theorem opt_never_fails (p : Parser) (f : Val → Val) (c : ParseState) :
    (∀ v c', p c = some (v, c') → opt p f c = some (f (Val.tagOpt v), c'))
    ∧ (p c = none → opt p f c = some (f (Val.tagOpt Val.vnull), c))
    ∧ opt p f c ≠ none := by
  refine ⟨?_, ?_, ?_⟩
  · intro v c' h
    unfold opt
    rw [h]
  · intro h
    unfold opt
    rw [h]
  · unfold opt
    cases p c <;> simp

/-- Witness for C4: `opt (str "+")` succeeds both on `"+"` (consuming it) and
on a non-matching input (consuming nothing, with the `null` marker). -/
theorem opt_never_fails_witness :
    opt (str ['+'] id) id ⟨['+'], 0⟩
      = some (Val.tagOpt (Val.tagStr (Val.vstr ['+'])), ⟨['+'], 1⟩)
    ∧ opt (str ['+'] id) id ⟨['z'], 0⟩ = some (Val.tagOpt Val.vnull, ⟨['z'], 0⟩) := by
  constructor
  · exact (opt_never_fails (str ['+'] id) id ⟨['+'], 0⟩).1
      (Val.tagStr (Val.vstr ['+'])) ⟨['+'], 1⟩ rfl
  · exact (opt_never_fails (str ['+'] id) id ⟨['z'], 0⟩).2.1 rfl

/-- Claim C8: if the registry binds `name` to a parser `q` at the moment the
`ref` parser is invoked on a cursor — the registry argument of the embedding
is the registry's contents at that moment, so this covers bindings made after
the reference was constructed — then the invocation returns exactly `q`'s
result, unmodified and with no wrapping tag of its own. -/
theorem ref_delegates_to_current_binding (ctx : Ctx) (name : String)
    (q : Parser) (c : ParseState) (h : ctx name = some q) :
    ref ctx name c = RefResult.ok (q c) := by
  unfold ref
  rw [h]

/-- Witness for C8: a registry binding `"number"` to the digit parser makes
the reference behave exactly as the digit parser, with no extra tag. -/
theorem ref_delegates_to_current_binding_witness :
    ref (fun n => if n = "number" then some (char ['0', '-', '9'] id) else none)
      "number" ⟨['4'], 0⟩
      = RefResult.ok (some (Val.tagChar (Val.vstr ['4']), ⟨['4'], 1⟩)) := by
  have h := ref_delegates_to_current_binding
    (fun n => if n = "number" then some (char ['0', '-', '9'] id) else none)
    "number" (char ['0', '-', '9'] id) ⟨['4'], 0⟩ (by simp)
  rw [h]
  rfl

/-- Claim C9: if `name` is unbound in the registry at the moment the `ref`
parser is invoked, the invocation signals a distinct fatal error (the JS
`TypeError` of calling `undefined`), and never returns an ordinary result —
in particular never the grammar-mismatch failure value. -/
theorem ref_unbound_is_error (ctx : Ctx) (name : String) (c : ParseState)
    (h : ctx name = none) :
    ref ctx name c = RefResult.err ∧ ∀ r, ref ctx name c ≠ RefResult.ok r := by
  have he : ref ctx name c = RefResult.err := by
    unfold ref
    rw [h]
  refine ⟨he, fun r hr => ?_⟩
  rw [he] at hr
  cases hr

/-- Witness for C9: the empty registry makes any reference invocation an
error. -/
theorem ref_unbound_is_error_witness :
    ref (fun _ => none) "number" ⟨[], 0⟩ = RefResult.err :=
  (ref_unbound_is_error (fun _ => none) "number" ⟨[], 0⟩ rfl).1

/-- Claim C10: there is a parser and an input on which the parser succeeds
and consumes the whole input, yet `parse` returns `null`, the very value of
the failure sentinel: a formatter mapping the result to `null` makes a full
success indistinguishable at the `parse` interface from a non-match (compare
the last conjunct, an ordinary failure). -/
theorem parse_null_formatter_collision :
    str ['x'] (fun _ => Val.vnull) ⟨['x'], 0⟩ = some (Val.vnull, ⟨['x'], 1⟩)
    ∧ (ParseState.mk ['x'] 1).isComplete = true
    ∧ parse (str ['x'] (fun _ => Val.vnull)) ['x'] = Val.vnull
    ∧ parse (str ['y'] id) ['x'] = Val.vnull :=
  ⟨rfl, rfl, rfl, rfl⟩

/-- Claim C2: at a cursor where repeated application of `p` reaches a failing
attempt after `k` successes (the maximal greedy run, of length `k`, computed
by `applyN`), the result of `rep(p, n)` is: success exactly when `k ≥ n`,
the result list being exactly the values of that maximal run in order, and
the returned cursor being the one left by the last successful sub-match
(`c` itself when the run is empty), not a cursor of the failed attempt.
The result is moreover the unique one the loop can produce. -/
theorem rep_matches_maximal_greedy_run (p : Parser) (n : Nat) (f : Val → Val)
    (c : ParseState) (k : Nat) (vs : List Val) (e : ParseState)
    (h : applyN p k c = some (vs, e)) (hf : p e = none) :
    RepResult p n f c (if n ≤ k then some (f (Val.tagRep vs), e) else none)
    ∧ vs.length = k
    ∧ (∀ r, RepResult p n f c r →
        r = if n ≤ k then some (f (Val.tagRep vs), e) else none)
    ∧ (k = 0 → e = c) := by
  have hrun : RepRun p c vs e := applyN_repRun h hf
  have hlen : vs.length = k := applyN_length h
  refine ⟨⟨vs, e, hrun, by rw [hlen]⟩, hlen, ?_, ?_⟩
  · rintro r ⟨vs', last', hrun', rfl⟩
    obtain ⟨h1, h2⟩ := RepRun.det hrun' hrun
    rw [h1, h2, hlen]
  · intro hk
    subst hk
    simp only [applyN, Option.some.injEq, Prod.mk.injEq] at h
    exact h.2.symm

/-- Witness for C2: the digit parser on `"12a"` has a maximal greedy run of
length 2, so `rep(digit, 2)` succeeds with both digits and stops at offset 2
(the cursor after the second digit, not one of the failed third attempt). -/
theorem rep_matches_maximal_greedy_run_witness :
    RepResult (char ['0', '-', '9'] id) 2 id ⟨['1', '2', 'a'], 0⟩
      (some (Val.tagRep [Val.tagChar (Val.vstr ['1']), Val.tagChar (Val.vstr ['2'])],
        ⟨['1', '2', 'a'], 2⟩)) := by
  have h := rep_matches_maximal_greedy_run (char ['0', '-', '9'] id) 2 id
    ⟨['1', '2', 'a'], 0⟩ 2
    [Val.tagChar (Val.vstr ['1']), Val.tagChar (Val.vstr ['2'])]
    ⟨['1', '2', 'a'], 2⟩ rfl rfl
  simpa using h.1

/-- Counterexample to claim C3 as stated: the parser that succeeds at every
cursor while consuming one position strictly advances the cursor on every
success, and the starting cursor is within its (empty) source, yet `rep`'s
loop on it never terminates — strict consumption alone does not bound the
number of iterations, because nothing stops the offset from growing past the
end of the string forever. -/
theorem rep_strict_consumption_insufficient :
    (∀ c v c', alwaysAdvance c = some (v, c') → c.offset < c'.offset)
    ∧ (ParseState.mk [] 0).offset ≤ (ParseState.mk ([] : List Char) 0).string.length
    ∧ ¬ ∃ vs last, RepRun alwaysAdvance ⟨[], 0⟩ vs last := by
  refine ⟨?_, Nat.le_refl _, ?_⟩
  · intro c v c' h
    unfold alwaysAdvance at h
    simp only [Option.some.injEq, Prod.mk.injEq] at h
    rw [← h.2]
    exact Nat.lt_succ_of_le (Nat.le_refl _)
  · rintro ⟨vs, last, hrun⟩
    have hfail := RepRun.lastFails hrun
    unfold alwaysAdvance at hfail
    cases hfail

/-- Claim C3, amended: for every parser `p` whose successes strictly advance
the cursor while staying on the same source string and never moving past its
end — the amendment the counterexample forces: strict consumption alone does
not bound the loop, the offsets must also remain within the source — and for
every minimum `n` and cursor `c` with offset ≤ the length of its source, the
evaluation of `rep(p, n)` at `c` terminates: the loop makes finitely many
applications of `p` and `rep`'s result is defined. -/
theorem rep_terminates_of_bounded_strict (p : Parser)
    (hp : ∀ c v c', p c = some (v, c') →
      c.offset < c'.offset ∧ c'.string = c.string ∧ c'.offset ≤ c'.string.length)
    (n : Nat) (f : Val → Val) (c : ParseState)
    (hc : c.offset ≤ c.string.length) :
    ∃ vs last, RepRun p c vs last ∧ ∃ r, RepResult p n f c r := by
  obtain ⟨vs, last, hrun⟩ :=
    rep_term_aux p hp (c.string.length - c.offset + 1) c (Nat.lt_succ_of_le (Nat.le_refl _))
  exact ⟨vs, last, hrun, _, vs, last, hrun, rfl⟩

/-- Witness for C3 (amended): the digit parser satisfies the bounds, so the
repetition loop on it terminates from the start of `"7q"`. -/
theorem rep_terminates_of_bounded_strict_witness :
    ∃ vs last, RepRun (char ['0', '-', '9'] id) ⟨['7', 'q'], 0⟩ vs last
      ∧ ∃ r, RepResult (char ['0', '-', '9'] id) 1 id ⟨['7', 'q'], 0⟩ r :=
  rep_terminates_of_bounded_strict (char ['0', '-', '9'] id)
    (fun _ _ _ h => char_bounds h) 1 id ⟨['7', 'q'], 0⟩ (by decide)

/-- Claim C5: `alt` applies each parser to the same original cursor in list
order and returns the result of the first one that succeeds, wrapped as
`{alt: result}` with that parser's returned cursor; if none succeeds it
fails with no cursor produced. -/
theorem alt_first_success (qs : List Parser) (f : Val → Val) (c : ParseState) :
    (alt qs f c = none ↔ ∀ q ∈ qs, q c = none)
    ∧ (∀ (l : List Parser) (p : Parser) (r : List Parser) (v : Val) (c' : ParseState),
        qs = l ++ p :: r → (∀ q ∈ l, q c = none) → p c = some (v, c') →
        alt qs f c = some (f (Val.tagAlt v), c')) := by
  constructor
  · exact altGo_none_iff
  · intro l p r v c' hqs hl hp
    rw [hqs]
    exact altGo_first hl hp

/-- Witness for C5: with alternatives `[str "a", str "ab"]` on `"ab"`, both
can match at the original cursor, and the alternation returns the first
parser's result (the one-character match), not the second's. -/
theorem alt_first_success_witness :
    alt [str ['a'] id, str ['a', 'b'] id] id ⟨['a', 'b'], 0⟩
      = some (Val.tagAlt (Val.tagStr (Val.vstr ['a'])), ⟨['a', 'b'], 1⟩)
    ∧ str ['a'] id ⟨['a', 'b'], 0⟩ = some (Val.tagStr (Val.vstr ['a']), ⟨['a', 'b'], 1⟩)
    ∧ str ['a', 'b'] id ⟨['a', 'b'], 0⟩
      = some (Val.tagStr (Val.vstr ['a', 'b']), ⟨['a', 'b'], 2⟩) := by
  refine ⟨?_, rfl, rfl⟩
  exact (alt_first_success [str ['a'] id, str ['a', 'b'] id] id ⟨['a', 'b'], 0⟩).2
    [] (str ['a'] id) [str ['a', 'b'] id] (Val.tagStr (Val.vstr ['a']))
    ⟨['a', 'b'], 1⟩ rfl (by intro q hq; cases hq) rfl

/-- Claim C6: every parser built from the combinators `str`, `char`, `seq`,
`rep`, `opt`, `alt` and `ref` (over a registry whose entries are themselves
so built) consumes monotonically: whenever it succeeds, the returned cursor's
offset is at least the input cursor's offset.  Failure produces no cursor at
all (the result is `none`, which carries no state). -/
theorem interp_offset_monotone (reg : GReg) :
    ∀ (fuel : Nat) (g : Grammar) (c : ParseState) (v : Val) (c' : ParseState),
      interp reg fuel g c = some (v, c') → c.offset ≤ c'.offset := by
  intro fuel
  induction fuel with
  | zero => intro g c v c' h; simp [interp] at h
  | succ fuel ih =>
    have ihm : ∀ g', Mono (interp reg fuel g') := fun g' c v c' h => ih g' c v c' h
    intro g c v c' h
    cases g with
    | gstr s f => exact str_mono s f c v c' h
    | gchar cs f => exact char_mono cs f c v c' h
    | gseq gs f =>
      refine seq_mono ?_ f c v c' h
      intro q hq
      rw [List.mem_map] at hq
      obtain ⟨g', _, rfl⟩ := hq
      exact ihm g'
    | grep g' n f => exact rep_mono (ihm g') n f fuel c v c' h
    | gopt g' f => exact opt_mono (ihm g') f c v c' h
    | galt gs f =>
      refine alt_mono ?_ f c v c' h
      intro q hq
      rw [List.mem_map] at hq
      obtain ⟨g', _, rfl⟩ := hq
      exact ihm g'
    | gref name =>
      unfold interp at h
      simp only [] at h
      cases hr : reg name with
      | some g' =>
        rw [hr] at h
        exact ihm g' c v c' h
      | none => rw [hr] at h; cases h

/-- Witness for C6: a grammar with a reference to a registered digit parser
under a repetition consumes two positions of `"42"` from offset 0. -/
theorem interp_offset_monotone_witness :
    interp (fun nm => if nm = "digit" then some (Grammar.gchar ['0', '-', '9'] id) else none)
      5 (Grammar.grep (Grammar.gref "digit") 1 id) ⟨['4', '2'], 0⟩
      = some (Val.tagRep [Val.tagChar (Val.vstr ['4']), Val.tagChar (Val.vstr ['2'])],
          ⟨['4', '2'], 2⟩)
    ∧ (ParseState.mk ['4', '2'] 0).offset ≤ (ParseState.mk ['4', '2'] 2).offset := by
  constructor
  · rfl
  · exact interp_offset_monotone
      (fun nm => if nm = "digit" then some (Grammar.gchar ['0', '-', '9'] id) else none)
      5 (Grammar.grep (Grammar.gref "digit") 1 id) ⟨['4', '2'], 0⟩
      (Val.tagRep [Val.tagChar (Val.vstr ['4']), Val.tagChar (Val.vstr ['2'])])
      ⟨['4', '2'], 2⟩ rfl

/-- Claim C7: for every combinator, every formatter `f` and every cursor, the
parser built with `f` succeeds exactly when the parser built without a
formatter (the identity default) succeeds, with the same returned cursor;
`f` changes only the result value, which is `f` of the default tagged value
(`fmapR f` applies `f` to the value component and nothing else). -/
theorem formatter_transparency (f : Val → Val) (c : ParseState) :
    (∀ s, str s f c = fmapR f (str s id c))
    ∧ (∀ cs, char cs f c = fmapR f (char cs id c))
    ∧ (∀ qs, seq qs f c = fmapR f (seq qs id c))
    ∧ (∀ p n fuel, rep p n f fuel c = fmapR f (rep p n id fuel c))
    ∧ (∀ p, opt p f c = fmapR f (opt p id c))
    ∧ (∀ qs, alt qs f c = fmapR f (alt qs id c)) := by
  refine ⟨?_, ?_, ?_, ?_, ?_, ?_⟩
  · intro s
    unfold str fmapR
    by_cases h : c.peek s.length = s <;> simp [h]
  · intro cs
    unfold char fmapR
    simp only []
    cases h : charTest cs (c.peek 1) <;> simp [h]
  · intro qs
    unfold seq fmapR
    simp only []
    cases h : (qs.foldl seqStep ⟨true, c, []⟩).success <;> simp [h]
  · intro p n fuel
    unfold rep fmapR
    cases hr : repLoop p fuel c with
    | none => simp
    | some r =>
      obtain ⟨vs, last⟩ := r
      simp only []
      by_cases hn : n ≤ vs.length <;> simp [hn]
  · intro p
    unfold opt fmapR
    cases hp : p c <;> simp
  · intro qs
    exact altGo_fmt

end Uparse

